import Mathlib

/-!
# Verification of the lisp interpreter (marcusklaas/lisp-parsers)

This file shallowly embeds the two source files of the repository:

* `src/src/evaluator.rs` — an instruction-stack evaluator (`eval`) together
  with its `State` environment, in namespace `OldEval`.  The data
  declarations it pattern-matches against (`LispExpr` with `SubExpr` and
  `Argument` variants, `LispValue` with `Truth`/`SubValue` variants, the
  `LispFunc` with an inline `state`/`args`/`body` record) are not part of
  `src/`; they are reconstructed exactly from their uses in `evaluator.rs`.
* `src/src/lib.rs` — the resolver `LispExpr::finalize` of the newer version
  of the code base, in namespace `NewResolver`, together with the data types
  it operates on (`LispExpr` with a `Macro` variant, `FinalizedExpr`, ...).

Rust `u64` integers are modelled by `Nat`: no claim under study exercises
overflow (the spec leaves addition overflow unspecified).
Rust's `HashMap<String, _>` is modelled by an association list with
insert-replaces semantics; the iteration order of the Rust hash map is
unspecified, and no result proved below depends on the chosen order.
A Rust panic (`unwrap` on an empty stack, index out of bounds, failed
final assertion) is modelled by the `crash` outcome.
-/

namespace OldEval

/-- Evaluation errors, from `EvaluationError` in `src/src/lib.rs`. -/
inductive EvaluationError where
  | UnexpectedOperator
  | ArgumentCountMismatch
  | ArgumentTypeMismatch
  | EmptyListEvaluation
  | NonFunctionApplication
  | SubZero
  | EmptyList
  | UnknownVariable : String → EvaluationError
  | MalformedDefinition
  | BadDefine
  deriving DecidableEq, Repr

mutual
/-- Runtime values as used by `src/src/evaluator.rs` (`Truth`, `Integer`,
`Function`, `SubValue`). -/
inductive LispValue where
  | Truth : Bool → LispValue
  | Integer : Nat → LispValue
  | Function : LispFunc → LispValue
  | SubValue : List LispValue → LispValue

/-- Functions as used by `src/src/evaluator.rs`: a named builtin, or a
custom function carrying its captured `state`, argument names and body. -/
inductive LispFunc where
  | BuiltIn : String → LispFunc
  | Custom : List (String × LispValue) → List String → LispExpr → LispFunc

/-- Expressions as pattern-matched by `src/src/evaluator.rs`:
`Value`, `OpVar`, `SubExpr` (a function call) and `Argument`. -/
inductive LispExpr where
  | Value : LispValue → LispExpr
  | OpVar : String → LispExpr
  | SubExpr : List LispExpr → LispExpr
  | Argument : Nat → LispExpr
end

/-- The environment: `State` from `src/src/evaluator.rs`, whose single field
`bound` is a `HashMap<String, LispValue>`, modelled as an association list. -/
abbrev State := List (String × LispValue)

/-- Association-list lookup, mirroring `HashMap::get`. -/
def mapGet (m : State) (k : String) : Option LispValue :=
  match m with
  | [] => none
  | (k', v) :: rest => if k' = k then some v else mapGet rest k

/-- `State::new`: binds `#t` and `#f` to the boolean constants. -/
def State.new : State :=
  [("#t", LispValue.Truth true), ("#f", LispValue.Truth false)]

/-- `State::get_variable_value`: a bound value, or a named builtin fallback. -/
def getVariableValue (s : State) (varName : String) : LispValue :=
  match mapGet s varName with
  | some val => val
  | none => LispValue.Function (LispFunc.BuiltIn varName)

/-- `State::set_variable`: `HashMap::insert` — replaces any existing binding. -/
def setVariable (s : State) (varName : String) (val : LispValue) : State :=
  match s with
  | [] => [(varName, val)]
  | (k, v) :: rest =>
    if k = varName then (varName, val) :: rest else (k, v) :: setVariable rest varName val

/-- The instruction set `Instr` of `src/src/evaluator.rs`. -/
inductive Instr where
  | EvalAndPush : LispExpr → Instr
  | EvalFunction : List LispExpr → Instr
  | PopCondPush : LispExpr → LispExpr → Instr
  | PopAndSet : String → Instr
  | PopState : Instr
  | BindArguments : List String → Instr
  | EvalFunctionEager : String → Nat → Instr

/-- The mutable state of the `eval` loop in `src/src/evaluator.rs`.
Each `List` models a Rust `Vec` used as a stack, with the LIST HEAD being
the TOP of the Rust vector (its last element). -/
structure Machine where
  instructions : List Instr
  returnValues : List LispValue
  states : List State
  state : State
  stackPointers : List Nat

/-- `Vec::truncate p` on a stack whose head is the vector top: keep the
bottom-most `p` elements. -/
def vtruncate (p : Nat) (l : List LispValue) : List LispValue :=
  l.drop (l.length - p)

/-- Outcome of executing one instruction of the loop body of `eval`. -/
inductive StepResult where
  | next : Machine → StepResult
  | done : Machine → StepResult
  | fail : EvaluationError → StepResult
  | crash : StepResult

/-- Maps each lambda parameter expression to its symbol, as in the `lambda`
arm of `EvalFunction` (`MalformedDefinition` on a non-symbol parameter). -/
def argNames : List LispExpr → Except EvaluationError (List String)
  | [] => .ok []
  | LispExpr.OpVar name :: rest => (argNames rest).map (name :: ·)
  | _ :: _ => .error EvaluationError.MalformedDefinition

/-- The `EvalFunctionEager` arm of `eval`: apply the builtin `funcName` to
the `argCount` values on top of the value stack `rv` (head = top), returning
the updated value stack.  Transcribes the `func_match!` table; a name that
matches none of the rows hits the catch-all `UnknownVariable`. -/
def evalFunctionEager (funcName : String) (argCount : Nat) (rv : List LispValue) :
    Except EvaluationError (List LispValue) ⊕ Unit :=
  -- `Sum.inr ()` models a Rust panic (e.g. `pop().unwrap()` on an empty stack).
  if funcName = "list" then
    if argCount ≤ rv.length then
      .inl (.ok (LispValue.SubValue ((rv.take argCount).reverse) :: rv.drop argCount))
    else .inr ()
  else if funcName = "car" then
    if argCount = 1 then
      match rv with
      | LispValue.SubValue v :: rvt =>
        match v.getLast? with
        | some car => .inl (.ok (car :: rvt))
        | none => .inl (.error EvaluationError.EmptyList)
      | _ :: _ => .inl (.error EvaluationError.ArgumentTypeMismatch)
      | [] => .inr ()
    else .inl (.error EvaluationError.ArgumentCountMismatch)
  else if funcName = "cdr" then
    if argCount = 1 then
      match rv with
      | LispValue.SubValue v :: rvt =>
        match v.getLast? with
        | some _ => .inl (.ok (LispValue.SubValue v.dropLast :: rvt))
        | none => .inl (.error EvaluationError.EmptyList)
      | _ :: _ => .inl (.error EvaluationError.ArgumentTypeMismatch)
      | [] => .inr ()
    else .inl (.error EvaluationError.ArgumentCountMismatch)
  else if funcName = "null?" then
    if argCount = 1 then
      match rv with
      | LispValue.SubValue v :: rvt => .inl (.ok (LispValue.Truth v.isEmpty :: rvt))
      | _ :: _ => .inl (.error EvaluationError.ArgumentTypeMismatch)
      | [] => .inr ()
    else .inl (.error EvaluationError.ArgumentCountMismatch)
  else if funcName = "add1" then
    if argCount = 1 then
      match rv with
      | LispValue.Integer i :: rvt => .inl (.ok (LispValue.Integer (i + 1) :: rvt))
      | _ :: _ => .inl (.error EvaluationError.ArgumentTypeMismatch)
      | [] => .inr ()
    else .inl (.error EvaluationError.ArgumentCountMismatch)
  else if funcName = "sub1" then
    if argCount = 1 then
      match rv with
      | LispValue.Integer i :: rvt =>
        if i > 0 then .inl (.ok (LispValue.Integer (i - 1) :: rvt))
        else .inl (.error EvaluationError.SubZero)
      | _ :: _ => .inl (.error EvaluationError.ArgumentTypeMismatch)
      | [] => .inr ()
    else .inl (.error EvaluationError.ArgumentCountMismatch)
  else if funcName = "cons" then
    if argCount = 2 then
      match rv with
      | LispValue.SubValue newVec :: x :: rvt =>
        .inl (.ok (LispValue.SubValue (newVec ++ [x]) :: rvt))
      | LispValue.SubValue _ :: [] => .inr ()
      | _ :: _ => .inl (.error EvaluationError.ArgumentTypeMismatch)
      | [] => .inr ()
    else .inl (.error EvaluationError.ArgumentCountMismatch)
  else if funcName = "zero?" then
    if argCount = 1 then
      match rv with
      | LispValue.Integer i :: rvt => .inl (.ok (LispValue.Truth (i = 0) :: rvt))
      | _ :: _ => .inl (.error EvaluationError.ArgumentTypeMismatch)
      | [] => .inr ()
    else .inl (.error EvaluationError.ArgumentCountMismatch)
  else .inl (.error (EvaluationError.UnknownVariable funcName))

/-- `BindArguments`: for each name in order, insert the popped top of the
value stack into the current environment. -/
def bindArguments (names : List String) (s : State) (rv : List LispValue) :
    Option (State × List LispValue) :=
  match names with
  | [] => some (s, rv)
  | name :: rest =>
    match rv with
    | v :: rvt => bindArguments rest (setVariable s name v) rvt
    | [] => none

/-- The `LispFunc::BuiltIn` arm of the `EvalFunction` instruction: the three
special forms `cond`, `lambda` and `define`, and otherwise the setup for
eager argument evaluation (evaluated left to right).  `rv` is the value
stack after the callee has been popped; `rest` the remaining instructions. -/
def applyBuiltIn (funcName : String) (exprList : List LispExpr) (rest : List Instr)
    (rv : List LispValue) (ss : List State) (st : State) (ps : List Nat) : StepResult :=
  if funcName = "cond" then
    match exprList with
    | [truthValue, trueExpr, falseExpr] =>
      .next ⟨Instr.EvalAndPush truthValue :: Instr.PopCondPush trueExpr falseExpr :: rest,
        rv, ss, st, ps⟩
    | _ => .fail EvaluationError.ArgumentCountMismatch
  else if funcName = "lambda" then
    match exprList with
    | [argList, body] =>
      match argList with
      | LispExpr.SubExpr argVec =>
        match argNames argVec with
        | .ok names =>
          .next ⟨rest, LispValue.Function (LispFunc.Custom st names body) :: rv, ss, st, ps⟩
        | .error e => .fail e
      | _ => .fail EvaluationError.ArgumentTypeMismatch
    | _ => .fail EvaluationError.ArgumentCountMismatch
  else if funcName = "define" then
    match exprList with
    | [varName, definition] =>
      match varName with
      | LispExpr.OpVar name =>
        .next ⟨Instr.EvalAndPush definition :: Instr.PopAndSet name :: rest, rv, ss, st, ps⟩
      | _ => .fail EvaluationError.ArgumentTypeMismatch
    | _ => .fail EvaluationError.ArgumentCountMismatch
  else
    .next ⟨exprList.map Instr.EvalAndPush ++
        Instr.EvalFunctionEager funcName exprList.length :: rest, rv, ss, st, ps⟩

/-- The `LispFunc::Custom` arm of the `EvalFunction` instruction: check the
argument count, push the frame pointer, copy every binding of the caller's
state into the closure state (also pushing each copied value onto the value
stack, as the Rust loop does), save the caller's state, and queue the
argument evaluations (executed right to left), the argument binding, the
body and the frame pop. -/
def applyCustom (closure : State) (args : List String) (body : LispExpr)
    (exprList : List LispExpr) (rest : List Instr) (rv : List LispValue)
    (ss : List State) (st : State) (ps : List Nat) : StepResult :=
  if args.length ≠ exprList.length then
    .fail EvaluationError.ArgumentCountMismatch
  else
    .next ⟨exprList.reverse.map Instr.EvalAndPush ++
        Instr.BindArguments args :: Instr.EvalAndPush body :: Instr.PopState :: rest,
      (st.map Prod.snd).reverse ++ rv,
      st :: ss,
      st.foldl (fun c nv => setVariable c nv.1 nv.2) closure,
      rv.length :: ps⟩

/-- The `EvalFunctionEager` instruction: dispatch on the outcome of the
builtin application. -/
def stepEager (funcName : String) (argCount : Nat) (rest : List Instr)
    (rv : List LispValue) (ss : List State) (st : State) (ps : List Nat) : StepResult :=
  match evalFunctionEager funcName argCount rv with
  | .inl (.ok rv') => .next ⟨rest, rv', ss, st, ps⟩
  | .inl (.error e) => .fail e
  | .inr () => .crash

/-- One iteration of the `while let Some(instr) = instructions.pop()` loop of
`eval` in `src/src/evaluator.rs`. -/
def step (m : Machine) : StepResult :=
  match m.instructions with
  | [] => .done m
  | instr :: rest =>
    match instr with
    | Instr.PopState =>
      match m.states, m.returnValues, m.stackPointers with
      | st :: sts, v :: rvt, p :: ps =>
        .next ⟨rest, v :: vtruncate p rvt, sts, st, ps⟩
      | _, _, _ => .crash
    | Instr.EvalAndPush expr =>
      match expr with
      | LispExpr.Argument offset =>
        -- reads index `len - 1 - offset` of the Rust vector, i.e. depth
        -- `offset` from the top; out of bounds is a panic
        match m.returnValues.get? offset with
        | some value => .next ⟨rest, value :: m.returnValues, m.states, m.state, m.stackPointers⟩
        | none => .crash
      | LispExpr.Value v =>
        .next ⟨rest, v :: m.returnValues, m.states, m.state, m.stackPointers⟩
      | LispExpr.OpVar n =>
        .next ⟨rest, getVariableValue m.state n :: m.returnValues, m.states, m.state,
          m.stackPointers⟩
      | LispExpr.SubExpr exprVec =>
        match exprVec with
        | [] => .crash  -- `expr_vec.remove(0)` on an empty vector panics
        | headExpr :: tailExprs =>
          .next ⟨Instr.EvalAndPush headExpr :: Instr.EvalFunction tailExprs :: rest,
            m.returnValues, m.states, m.state, m.stackPointers⟩
    | Instr.EvalFunction exprList =>
      match m.returnValues with
      | [] => .crash
      | head :: rv =>
        match head with
        | LispValue.Function f =>
          match f with
          | LispFunc.BuiltIn funcName =>
            applyBuiltIn funcName exprList rest rv m.states m.state m.stackPointers
          | LispFunc.Custom closure args body =>
            applyCustom closure args body exprList rest rv m.states m.state m.stackPointers
        | _ => .fail EvaluationError.NonFunctionApplication
    | Instr.EvalFunctionEager funcName argCount =>
      stepEager funcName argCount rest m.returnValues m.states m.state m.stackPointers
    | Instr.BindArguments nameMapping =>
      match bindArguments nameMapping m.state m.returnValues with
      | some (s', rv') => .next ⟨rest, rv', m.states, s', m.stackPointers⟩
      | none => .crash
    | Instr.PopCondPush trueExpr falseExpr =>
      match m.returnValues with
      | LispValue.Truth b :: rv =>
        .next ⟨Instr.EvalAndPush (if b then trueExpr else falseExpr) :: rest,
          rv, m.states, m.state, m.stackPointers⟩
      | _ :: _ => .fail EvaluationError.ArgumentTypeMismatch
      | [] => .crash
    | Instr.PopAndSet varName =>
      match m.returnValues with
      | v :: rv =>
        .next ⟨rest, LispValue.SubValue [] :: rv, m.states,
          setVariable m.state varName v, m.stackPointers⟩
      | [] => .crash

/-- Result of a complete `eval` run.  `ok` carries the result value together
with the final environment (`*init_state = state`); an error leaves the
caller's environment untouched, as in the Rust early returns. -/
inductive EvalResult where
  | ok : LispValue → State → EvalResult
  | fail : EvaluationError → EvalResult
  | crashed : EvalResult
  | timeout : EvalResult

/-- The machine at the start of `eval`: one `EvalAndPush` instruction, empty
value and frame stacks, the single base stack pointer `0`. -/
def initMachine (e : LispExpr) (s : State) : Machine :=
  ⟨[Instr.EvalAndPush e], [], [], s, [0]⟩

/-- Run the `eval` loop for at most `fuel` iterations.  When the instruction
stack is exhausted the final assertions of `eval` are checked: exactly one
return value, no saved states, stack pointers equal to `[0]`. -/
def run : Nat → Machine → EvalResult
  | 0, _ => .timeout
  | fuel + 1, m =>
    match step m with
    | .done mf =>
      match mf.returnValues, mf.states, mf.stackPointers with
      | [v], [], [0] => .ok v mf.state
      | _, _, _ => .crashed
    | .next m' => run fuel m'
    | .fail e => .fail e
    | .crash => .crashed

/-- `eval(expr, init_state)` from `src/src/evaluator.rs`, with explicit fuel. -/
def eval (fuel : Nat) (e : LispExpr) (s : State) : EvalResult :=
  run fuel (initMachine e s)

/-- `k` iterations of the loop body, stopping early on loop exit, an error
return, or a panic. -/
def stepN : Nat → Machine → StepResult
  | 0, m => .next m
  | k + 1, m =>
    match step m with
    | .next m' => stepN k m'
    | r => r

/-- Instrumentation over the same loop: the largest length reached by the
saved-frame stack `states` within `fuel` iterations. -/
def maxFrames : Nat → Machine → Nat
  | 0, m => m.states.length
  | fuel + 1, m =>
    max m.states.length
      (match step m with
       | .next m' => maxFrames fuel m'
       | _ => 0)

/-- The number of `PopState` (frame-return) instructions in an instruction
stack segment; used to relate pending returns to saved frames. -/
def countPop : List Instr → Nat
  | [] => 0
  | Instr.PopState :: rest => countPop rest + 1
  | _ :: rest => countPop rest

mutual
/-- `LispValue::pretty_print` from `src/src/lib.rs` (booleans, integers and
lists; `SubValue` plays the role of the `List` variant).  Functions print an
opaque form; modelled from the spec (§6.4): no test asserts its exact text. -/
def prettyPrint : LispValue → String
  | LispValue.Function _ => "[function]"
  | LispValue.Integer i => toString i
  | LispValue.Truth true => "#t"
  | LispValue.Truth false => "#f"
  | LispValue.SubValue vec => "(" ++ prettyPrintItems vec ++ ")"

/-- Elements separated by single spaces, as in the `List` arm. -/
def prettyPrintItems : List LispValue → String
  | [] => ""
  | [v] => prettyPrint v
  | v :: rest => prettyPrint v ++ " " ++ prettyPrintItems rest
end

/-! Source-expression builders for the programs the claims speak about.
`(f a b …)` is `SubExpr [OpVar f, a, b, …]` in the expression type consumed
by the evaluator. -/

/-- The call `(list x₁ … xₙ)` with literal values as arguments. -/
def listProg (xs : List LispValue) : LispExpr :=
  LispExpr.SubExpr (LispExpr.OpVar "list" :: xs.map LispExpr.Value)

/-- The call `(car e)`. -/
def carProg (e : LispExpr) : LispExpr :=
  LispExpr.SubExpr [LispExpr.OpVar "car", e]

/-- The call `(cdr e)`. -/
def cdrProg (e : LispExpr) : LispExpr :=
  LispExpr.SubExpr [LispExpr.OpVar "cdr", e]

/-- The nest `(cons x₁ (cons x₂ … (cons xₙ (list)) …))`. -/
def consProg : List LispValue → LispExpr
  | [] => listProg []
  | x :: xs => LispExpr.SubExpr [LispExpr.OpVar "cons", LispExpr.Value x, consProg xs]

/-- An integer literal expression. -/
def intE (n : Nat) : LispExpr := LispExpr.Value (LispValue.Integer n)

/-- The top-level `(define name e)`. -/
def defineProg (name : String) (e : LispExpr) : LispExpr :=
  LispExpr.SubExpr [LispExpr.OpVar "define", LispExpr.OpVar name, e]

/-- The recursive addition from the repository's test suite:
`(define add (lambda (x y) (cond (zero? y) x (add (add1 x) (sub1 y)))))`.
Its self-recursion is in tail position (a branch of the body's `cond`). -/
def defineAdd : LispExpr :=
  defineProg "add"
    (LispExpr.SubExpr [LispExpr.OpVar "lambda",
      LispExpr.SubExpr [LispExpr.OpVar "x", LispExpr.OpVar "y"],
      LispExpr.SubExpr [LispExpr.OpVar "cond",
        LispExpr.SubExpr [LispExpr.OpVar "zero?", LispExpr.OpVar "y"],
        LispExpr.OpVar "x",
        LispExpr.SubExpr [LispExpr.OpVar "add",
          LispExpr.SubExpr [LispExpr.OpVar "add1", LispExpr.OpVar "x"],
          LispExpr.SubExpr [LispExpr.OpVar "sub1", LispExpr.OpVar "y"]]]])

/-- The environment produced by a successful run, or a fallback. -/
def stateAfter (r : EvalResult) (fallback : State) : State :=
  match r with
  | .ok _ s => s
  | _ => fallback

/-- The environment after evaluating `defineAdd` in the initial state. -/
def stateWithAdd : State := stateAfter (eval 50 defineAdd State.new) State.new

/-- The call `(add x y)` with integer literals. -/
def addCall (x y : Nat) : LispExpr :=
  LispExpr.SubExpr [LispExpr.OpVar "add", intE x, intE y]

/-- Exact number of loop iterations needed to evaluate `consProg xs`. -/
def consCost : List LispValue → Nat
  | [] => 4
  | _ :: xs => consCost xs + 5

end OldEval

namespace NewResolver

/-!
The resolver of the newer version of the code base: `LispExpr::finalize`
from `src/src/lib.rs`, together with the data types it operates on.  The
`state: &State` parameter of `finalize` is threaded through the Rust code
but never read, and is omitted here.  The `Cell<bool>` moveable flags that
the Rust code mutates in place are modelled by threading the updated
arguments map through every call and returning it alongside the result;
`arguments.clone()` (which clones the cells, decoupling them) is modelled
by reusing the map value unchanged.  The lazily compiled byte-code cache of
`InnerCustomFunc` is a pure performance affordance (spec §5, §9) and is not
modelled.
-/

/-- The `BuiltIn` tag enumeration from `src/src/lib.rs`. -/
inductive ArgType where
  | Integer
  | Boolean
  | Function
  | List
  deriving DecidableEq

/-- The builtin operations of `src/src/lib.rs`. -/
inductive BuiltIn where
  | AddOne
  | SubOne
  | Cons
  | Cdr
  | Car
  | List
  | CheckZero
  | CheckNull
  | CheckType : ArgType → BuiltIn
  deriving DecidableEq

/-- The three recognized special forms. -/
inductive LispMacro where
  | Define
  | Cond
  | Lambda
  deriving DecidableEq

/-- Evaluation errors, from `EvaluationError` in `src/src/lib.rs`. -/
inductive EvaluationError where
  | UnexpectedOperator
  | ArgumentCountMismatch
  | ArgumentTypeMismatch
  | EmptyListEvaluation
  | NonFunctionApplication
  | SubZero
  | EmptyList
  | UnknownVariable : String → EvaluationError
  | MalformedDefinition
  | BadDefine
  deriving DecidableEq

mutual
/-- `LispValue` from `src/src/lib.rs`. -/
inductive LispValue where
  | Boolean : Bool → LispValue
  | Integer : Nat → LispValue
  | Function : LispFunc → LispValue
  | List : List LispValue → LispValue

/-- `LispFunc` from `src/src/lib.rs`. -/
inductive LispFunc where
  | BuiltIn : BuiltIn → LispFunc
  | Custom : CustomFunc → LispFunc

/-- `CustomFunc`/`InnerCustomFunc` from `src/src/lib.rs`: argument count and
finalized body (the byte-code cache is omitted, see above). -/
inductive CustomFunc where
  | mk : Nat → FinalizedExpr → CustomFunc

/-- Parser-produced source expressions, `LispExpr` from `src/src/lib.rs`. -/
inductive LispExpr where
  | Macro : LispMacro → LispExpr
  | Value : LispValue → LispExpr
  | OpVar : String → LispExpr
  | Call : List LispExpr → LispExpr

/-- The finalized IR, `FinalizedExpr` from `src/src/lib.rs`. -/
inductive FinalizedExpr where
  | Lambda : Nat → Nat → FinalizedExpr → FinalizedExpr
  | Cond : FinalizedExpr → FinalizedExpr → FinalizedExpr → FinalizedExpr
  | Variable : String → FinalizedExpr
  | Value : LispValue → FinalizedExpr
  | Argument : Nat → Nat → Bool → FinalizedExpr
  | FunctionCall : FinalizedExpr → List FinalizedExpr → Bool → Bool → FinalizedExpr
end

/-- The arguments map of `finalize`: symbol ↦ (scope level, offset, moveable
flag), modelling `HashMap<String, (usize, usize, Cell<bool>)>`. -/
abbrev ArgumentsMap := List (String × (Nat × Nat × Bool))

/-- `HashMap::get`. -/
def mapGet (m : ArgumentsMap) (k : String) : Option (Nat × Nat × Bool) :=
  match m with
  | [] => none
  | (k', v) :: rest => if k' = k then some v else mapGet rest k

/-- `HashMap::insert`: replaces any existing entry. -/
def mapInsert (m : ArgumentsMap) (k : String) (v : Nat × Nat × Bool) : ArgumentsMap :=
  match m with
  | [] => [(k, v)]
  | (k', v') :: rest =>
    if k' = k then (k, v) :: rest else (k', v') :: mapInsert rest k v

/-- The post-`cond` merge loop of `finalize`: each moveable flag becomes the
AND of its values after the two branches.  Both maps always carry the same
keys, so the `none` fallback is never taken. -/
def mergeMoves (args falseArgs : ArgumentsMap) : ArgumentsMap :=
  args.map fun kv =>
    (kv.1, (kv.2.1, kv.2.2.1,
      kv.2.2.2 && (match mapGet falseArgs kv.1 with
                   | some (_, _, b) => b
                   | none => true)))

/-- The parameter-insertion loop of the `lambda` arm: each parameter must be
a symbol (`MalformedDefinition` otherwise) and is inserted with its offset,
the enclosing scope level, and a fresh moveable flag set to true. -/
def insertParams (scopeLevel : Nat) : ArgumentsMap → Nat → List LispExpr →
    Except EvaluationError ArgumentsMap
  | args, _, [] => .ok args
  | args, offset, LispExpr.OpVar name :: rest =>
    insertParams scopeLevel (mapInsert args name (scopeLevel, offset, true)) (offset + 1) rest
  | _, _, _ :: _ => .error EvaluationError.MalformedDefinition

mutual
/-- `LispExpr::finalize` from `src/src/lib.rs`.  Returns the finalized
expression together with the arguments map carrying the updated moveable
cells. -/
def finalize (expr : LispExpr) (scopeLevel : Nat) (arguments : ArgumentsMap)
    (canTailCall : Bool) (ownName : Option String) :
    Except EvaluationError (FinalizedExpr × ArgumentsMap) :=
  match expr with
  | LispExpr.Value v => .ok (FinalizedExpr.Value v, arguments)
  | LispExpr.OpVar n =>
    -- a function argument takes precedence over a state reference; reading
    -- it takes the current moveable flag and clears the cell
    match mapGet arguments n with
    | some (argScope, argOffset, isMoveable) =>
      .ok (FinalizedExpr.Argument argOffset argScope isMoveable,
        mapInsert arguments n (argScope, argOffset, false))
    | none => .ok (FinalizedExpr.Variable n, arguments)
  | LispExpr.Macro _ => .error EvaluationError.UnexpectedOperator
  | LispExpr.Call exprList =>
    match exprList with
    | [] => .error EvaluationError.EmptyListEvaluation
    | LispExpr.Macro LispMacro.Cond :: operands =>
        match operands with
        | [testExpr, trueExpr, falseExpr] => do
          -- the false branch is resolved against a clone of the map, the
          -- true branch against the original; then the flags are merged and
          -- the test is resolved last, never in tail position
          let falseExprArgs := arguments
          let (finalizedFalseExpr, falseArgs') ←
            finalize falseExpr scopeLevel falseExprArgs canTailCall ownName
          let (finalizedTrueExpr, args') ←
            finalize trueExpr scopeLevel arguments canTailCall ownName
          let merged := mergeMoves args' falseArgs'
          let (finalizedTest, merged') := ←
            finalize testExpr scopeLevel merged false ownName
          .ok (FinalizedExpr.Cond finalizedTest finalizedTrueExpr finalizedFalseExpr, merged')
        | _ => .error EvaluationError.ArgumentCountMismatch
    | LispExpr.Macro LispMacro.Lambda :: operands =>
        match operands with
        | [argList, body] =>
          match argList with
          | LispExpr.Call argVec => do
            -- parameters overwrite (shadow) entries of a clone of the map;
            -- mutations inside the body therefore do not reach `arguments`
            let newArguments ← insertParams scopeLevel arguments 0 argVec
            let (body', _) ← finalize body (scopeLevel + 1) newArguments true ownName
            .ok (FinalizedExpr.Lambda argVec.length scopeLevel body', arguments)
          | _ => .error EvaluationError.ArgumentTypeMismatch
        | _ => .error EvaluationError.ArgumentCountMismatch
    | LispExpr.Macro LispMacro.Define :: _ => .error EvaluationError.MalformedDefinition
    | headExpr :: operands => do
        -- function application: operands are resolved right to left so the
        -- rightmost occurrence of a name claims the move, and collected
        -- back in source order; the callee is resolved afterwards
        let isSelfCall :=
          match headExpr, ownName with
          | LispExpr.OpVar n, some selfName => n = selfName
          | _, _ => false
        let (argFinalizedExpr, m1) ← finalizeOperands operands scopeLevel arguments ownName
        let (funk, m2) ← finalize headExpr scopeLevel m1 false ownName
        .ok (FinalizedExpr.FunctionCall funk argFinalizedExpr canTailCall isSelfCall, m2)
termination_by sizeOf expr

/-- Resolves call operands right to left (the rightmost operand first), as
the `for e in expr_iter.rev()` loop does, returning them in source order. -/
def finalizeOperands (operands : List LispExpr) (scopeLevel : Nat)
    (arguments : ArgumentsMap) (ownName : Option String) :
    Except EvaluationError (List FinalizedExpr × ArgumentsMap) :=
  match operands with
  | [] => .ok ([], arguments)
  | e :: rest => do
    let (restFinalized, m1) ← finalizeOperands rest scopeLevel arguments ownName
    let (eFinalized, m2) ← finalize e scopeLevel m1 false ownName
    .ok (eFinalized :: restFinalized, m2)
termination_by sizeOf operands
end

end NewResolver

/-! ## Execution lemmas for the stack machine -/

namespace OldEval

theorem stepN_zero (m : Machine) : stepN 0 m = .next m := rfl

theorem stepN_one {m m' : Machine} (h : step m = .next m') : stepN 1 m = .next m' := by
  simp [stepN, h]

theorem stepN_add {i j : Nat} {m m₁ m₂ : Machine} (h1 : stepN i m = .next m₁)
    (h2 : stepN j m₁ = .next m₂) : stepN (i + j) m = .next m₂ := by
  induction i generalizing m with
  | zero =>
    simp only [stepN] at h1
    cases h1
    simpa using h2
  | succ i ih =>
    have hij : i + 1 + j = (i + j) + 1 := by omega
    rw [hij]
    simp only [stepN] at h1 ⊢
    cases hs : step m with
    | next m' => rw [hs] at h1; exact ih h1
    | done mf => rw [hs] at h1; cases h1
    | fail e => rw [hs] at h1; cases h1
    | crash => rw [hs] at h1; cases h1

theorem run_of_stepN {k fuel : Nat} {m m' : Machine} (h : stepN k m = .next m') :
    run (k + fuel) m = run fuel m' := by
  induction k generalizing m with
  | zero =>
    simp only [stepN] at h
    cases h
    simp
  | succ k ih =>
    have hk : k + 1 + fuel = (k + fuel) + 1 := by omega
    rw [hk]
    simp only [stepN] at h
    cases hs : step m with
    | next m'' =>
      rw [hs] at h
      calc run ((k + fuel) + 1) m = run (k + fuel) m'' := by simp [run, hs]
        _ = run fuel m' := ih h
    | done mf => rw [hs] at h; cases h
    | fail e => rw [hs] at h; cases h
    | crash => rw [hs] at h; cases h

theorem run_fail_of_step {fuel : Nat} {m : Machine} {e : EvaluationError}
    (h : step m = .fail e) : run (fuel + 1) m = .fail e := by
  simp [run, h]

theorem step_eager_ok {funcName : String} {argCount : Nat} {rv rv' : List LispValue}
    (rest : List Instr) (ss : List State) (st : State) (ps : List Nat)
    (h : evalFunctionEager funcName argCount rv = .inl (.ok rv')) :
    step ⟨Instr.EvalFunctionEager funcName argCount :: rest, rv, ss, st, ps⟩
      = .next ⟨rest, rv', ss, st, ps⟩ := by
  show stepEager funcName argCount rest rv ss st ps = _
  unfold stepEager
  rw [h]

theorem step_eager_err {funcName : String} {argCount : Nat} {rv : List LispValue}
    {e : EvaluationError} (rest : List Instr) (ss : List State) (st : State) (ps : List Nat)
    (h : evalFunctionEager funcName argCount rv = .inl (.error e)) :
    step ⟨Instr.EvalFunctionEager funcName argCount :: rest, rv, ss, st, ps⟩ = .fail e := by
  show stepEager funcName argCount rest rv ss st ps = _
  unfold stepEager
  rw [h]

theorem applyBuiltIn_other {funcName : String} (exprList : List LispExpr)
    (rest : List Instr) (rv : List LispValue) (ss : List State) (st : State) (ps : List Nat)
    (h1 : funcName ≠ "cond") (h2 : funcName ≠ "lambda") (h3 : funcName ≠ "define") :
    applyBuiltIn funcName exprList rest rv ss st ps
      = .next ⟨exprList.map Instr.EvalAndPush ++
          Instr.EvalFunctionEager funcName exprList.length :: rest, rv, ss, st, ps⟩ := by
  unfold applyBuiltIn
  rw [if_neg h1, if_neg h2, if_neg h3]

theorem evalFunctionEager_unknown {funcName : String} (argCount : Nat) (rv : List LispValue)
    (h : funcName ∉ ["list", "car", "cdr", "null?", "add1", "sub1", "cons", "zero?"]) :
    evalFunctionEager funcName argCount rv
      = .inl (.error (EvaluationError.UnknownVariable funcName)) := by
  simp only [List.mem_cons, List.not_mem_nil, or_false, not_or] at h
  obtain ⟨n1, n2, n3, n4, n5, n6, n7, n8⟩ := h
  unfold evalFunctionEager
  rw [if_neg n1, if_neg n2, if_neg n3, if_neg n4, if_neg n5, if_neg n6, if_neg n7, if_neg n8]

/-- Evaluating a block of literal-value pushes leaves the values on the
stack in reverse order (the last pushed is on top). -/
theorem stepN_pushValues (xs : List LispValue) : ∀ (K : List Instr) (rv : List LispValue)
    (ss : List State) (st : State) (ps : List Nat),
    stepN xs.length ⟨(xs.map LispExpr.Value).map Instr.EvalAndPush ++ K, rv, ss, st, ps⟩
      = .next ⟨K, xs.reverse ++ rv, ss, st, ps⟩ := by
  induction xs with
  | nil => intro K rv ss st ps; rfl
  | cons x xs ih =>
    intro K rv ss st ps
    exact (ih K (x :: rv) ss st ps).trans (by simp)

/-- The `list` builtin applied to exactly the values pushed for it. -/
theorem evalFunctionEager_list (xs : List LispValue) :
    evalFunctionEager "list" (xs.map LispExpr.Value).length (xs.reverse ++ [])
      = .inl (.ok [LispValue.SubValue xs]) := by
  unfold evalFunctionEager
  rw [if_pos rfl]
  rw [if_pos (by simp)]
  simp [List.take_of_length_le, List.drop_eq_nil_of_le]

/-- Evaluating the nested-cons program pushes the single list value whose
storage is the reverse of the nesting order. -/
theorem stepN_consProg (xs : List LispValue) : ∀ (K : List Instr) (rv : List LispValue)
    (ss : List State) (ps : List Nat),
    stepN (consCost xs) ⟨Instr.EvalAndPush (consProg xs) :: K, rv, ss, State.new, ps⟩
      = .next ⟨K, LispValue.SubValue xs.reverse :: rv, ss, State.new, ps⟩ := by
  induction xs with
  | nil =>
    intro K rv ss ps
    have h3 : stepN 3 ⟨Instr.EvalAndPush (consProg []) :: K, rv, ss, State.new, ps⟩
        = .next ⟨Instr.EvalFunctionEager "list" 0 :: K, rv, ss, State.new, ps⟩ := rfl
    have he : evalFunctionEager "list" 0 rv = .inl (.ok (LispValue.SubValue [] :: rv)) := by
      unfold evalFunctionEager
      rw [if_pos rfl, if_pos (Nat.zero_le _)]
      rfl
    exact stepN_add h3 (stepN_one (step_eager_ok K ss State.new ps he))
  | cons x xs ih =>
    intro K rv ss ps
    have hc : consCost (x :: xs) = (4 + consCost xs) + 1 := by
      simp [consCost]; omega
    rw [hc]
    have h4 : stepN 4 ⟨Instr.EvalAndPush (consProg (x :: xs)) :: K, rv, ss, State.new, ps⟩
        = .next ⟨Instr.EvalAndPush (consProg xs) :: Instr.EvalFunctionEager "cons" 2 :: K,
            x :: rv, ss, State.new, ps⟩ := rfl
    have hIH := ih (Instr.EvalFunctionEager "cons" 2 :: K) (x :: rv) ss ps
    have h1 : stepN 1 ⟨Instr.EvalFunctionEager "cons" 2 :: K,
        LispValue.SubValue xs.reverse :: x :: rv, ss, State.new, ps⟩
        = .next ⟨K, LispValue.SubValue (xs.reverse ++ [x]) :: rv, ss, State.new, ps⟩ :=
      stepN_one (step_eager_ok _ _ _ _ rfl)
    exact (stepN_add (stepN_add h4 hIH) h1).trans (by simp)

theorem stepN_shift {m m' : Machine} (hs : step m = .next m') (k : Nat) :
    stepN (k + 1) m = stepN k m' := by
  simp only [stepN]
  rw [hs]

theorem countPop_append (l₁ l₂ : List Instr) :
    countPop (l₁ ++ l₂) = countPop l₁ + countPop l₂ := by
  induction l₁ with
  | nil => simp [countPop]
  | cons i l₁ ih => cases i <;> simp [countPop, ih] <;> omega

theorem countPop_map_eval (l : List LispExpr) :
    countPop (l.map Instr.EvalAndPush) = 0 := by
  induction l with
  | nil => rfl
  | cons e l ih => simpa [countPop] using ih

theorem drop_append_of_le {α : Type} : ∀ {j : Nat} {l₁ l₂ : List α}, j ≤ l₁.length →
    (l₁ ++ l₂).drop j = l₁.drop j ++ l₂ := by
  intro j l₁
  induction l₁ generalizing j with
  | nil =>
    intro l₂ h
    have hj : j = 0 := by simpa using h
    subst hj
    simp
  | cons a l₁ ih =>
    intro l₂ h
    cases j with
    | zero => simp
    | succ j => simpa using ih (by simpa using h)

theorem bindArguments_some {names : List String} : ∀ {s : State} {rv : List LispValue}
    {s' : State} {rv'' : List LispValue},
    bindArguments names s rv = some (s', rv'') →
    names.length ≤ rv.length ∧ rv'' = rv.drop names.length := by
  induction names with
  | nil =>
    intro s rv s' rv'' h
    simp only [bindArguments] at h
    cases h
    simp
  | cons name names ih =>
    intro s rv s' rv'' h
    cases rv with
    | nil => simp [bindArguments] at h
    | cons v rvt =>
      simp only [bindArguments] at h
      obtain ⟨h1, h2⟩ := ih h
      exact ⟨by simpa using Nat.succ_le_succ h1, by simpa using h2⟩

/-- Every successful eager builtin application pushes exactly one value onto
the value stack from which it popped some of the top elements. -/
theorem evalFunctionEager_ok_shape {funcName : String} {argCount : Nat}
    {rv rv'' : List LispValue}
    (h : evalFunctionEager funcName argCount rv = .inl (.ok rv'')) :
    ∃ w j, j ≤ rv.length ∧ rv'' = w :: rv.drop j := by
  unfold evalFunctionEager at h
  by_cases hLi : funcName = "list"
  · rw [if_pos hLi] at h
    split_ifs at h with hle
    cases h
    exact ⟨_, argCount, hle, rfl⟩
  rw [if_neg hLi] at h
  by_cases hCa : funcName = "car"
  · rw [if_pos hCa] at h
    split_ifs at h with ha
    · rcases rv with _ | ⟨v0, rvt⟩
      · simp at h
      cases v0 with
      | SubValue v =>
        have h2 : (match v.getLast? with
            | some c => Sum.inl (Except.ok (c :: rvt))
            | none => (Sum.inl (Except.error EvaluationError.EmptyList) :
                Except EvaluationError (List LispValue) ⊕ Unit))
            = Sum.inl (Except.ok rv'') := h
        cases hg : v.getLast? with
        | none => rw [hg] at h2; simp at h2
        | some c => rw [hg] at h2; exact ⟨c, 1, by simp, by cases h2; rfl⟩
      | Truth b => simp at h
      | Integer i => simp at h
      | Function f => simp at h
    · simp at h
  rw [if_neg hCa] at h
  by_cases hCd : funcName = "cdr"
  · rw [if_pos hCd] at h
    split_ifs at h with ha
    · rcases rv with _ | ⟨v0, rvt⟩
      · simp at h
      cases v0 with
      | SubValue v =>
        have h2 : (match v.getLast? with
            | some c => Sum.inl (Except.ok (LispValue.SubValue v.dropLast :: rvt))
            | none => (Sum.inl (Except.error EvaluationError.EmptyList) :
                Except EvaluationError (List LispValue) ⊕ Unit))
            = Sum.inl (Except.ok rv'') := h
        cases hg : v.getLast? with
        | none => rw [hg] at h2; simp at h2
        | some c =>
          rw [hg] at h2
          exact ⟨LispValue.SubValue v.dropLast, 1, by simp, by cases h2; rfl⟩
      | Truth b => simp at h
      | Integer i => simp at h
      | Function f => simp at h
    · simp at h
  rw [if_neg hCd] at h
  by_cases hNu : funcName = "null?"
  · rw [if_pos hNu] at h
    split_ifs at h with ha
    · rcases rv with _ | ⟨v0, rvt⟩
      · simp at h
      cases v0 with
      | SubValue v =>
        have h2 : Sum.inl (Except.ok (LispValue.Truth v.isEmpty :: rvt))
            = Sum.inl (Except.ok rv'') := h
        exact ⟨LispValue.Truth v.isEmpty, 1, by simp, by cases h2; rfl⟩
      | Truth b => simp at h
      | Integer i => simp at h
      | Function f => simp at h
    · simp at h
  rw [if_neg hNu] at h
  by_cases hA1 : funcName = "add1"
  · rw [if_pos hA1] at h
    split_ifs at h with ha
    · rcases rv with _ | ⟨v0, rvt⟩
      · simp at h
      cases v0 with
      | Integer i =>
        have h2 : Sum.inl (Except.ok (LispValue.Integer (i + 1) :: rvt))
            = Sum.inl (Except.ok rv'') := h
        exact ⟨LispValue.Integer (i + 1), 1, by simp, by cases h2; rfl⟩
      | Truth b => simp at h
      | SubValue v => simp at h
      | Function f => simp at h
    · simp at h
  rw [if_neg hA1] at h
  by_cases hS1 : funcName = "sub1"
  · rw [if_pos hS1] at h
    split_ifs at h with ha
    · rcases rv with _ | ⟨v0, rvt⟩
      · simp at h
      cases v0 with
      | Integer i =>
        have h2 : (if i > 0 then Sum.inl (Except.ok (LispValue.Integer (i - 1) :: rvt))
            else (Sum.inl (Except.error EvaluationError.SubZero) :
                Except EvaluationError (List LispValue) ⊕ Unit))
            = Sum.inl (Except.ok rv'') := h
        split_ifs at h2
        · exact ⟨LispValue.Integer (i - 1), 1, by simp, by cases h2; rfl⟩
        · simp at h2
      | Truth b => simp at h
      | SubValue v => simp at h
      | Function f => simp at h
    · simp at h
  rw [if_neg hS1] at h
  by_cases hCo : funcName = "cons"
  · rw [if_pos hCo] at h
    split_ifs at h with ha
    · rcases rv with _ | ⟨v0, _ | ⟨v1, rvt⟩⟩
      · simp at h
      · cases v0 <;> simp at h
      · cases v0 with
        | SubValue newVec =>
          have h2 : Sum.inl (Except.ok (LispValue.SubValue (newVec ++ [v1]) :: rvt))
              = Sum.inl (Except.ok rv'') := h
          exact ⟨LispValue.SubValue (newVec ++ [v1]), 2, by simp, by cases h2; rfl⟩
        | Truth b => simp at h
        | Integer i => simp at h
        | Function f => simp at h
    · simp at h
  rw [if_neg hCo] at h
  by_cases hZe : funcName = "zero?"
  · rw [if_pos hZe] at h
    split_ifs at h with ha
    · rcases rv with _ | ⟨v0, rvt⟩
      · simp at h
      cases v0 with
      | Integer i =>
        have h2 : Sum.inl (Except.ok (LispValue.Truth (i = 0) :: rvt))
            = Sum.inl (Except.ok rv'') := h
        exact ⟨LispValue.Truth (decide (i = 0)), 1, by simp, by cases h2; rfl⟩
      | Truth b => simp at h
      | SubValue v => simp at h
      | Function f => simp at h
    · simp at h
  rw [if_neg hZe] at h
  simp at h

theorem stepN_succ_fail {m : Machine} {e : EvaluationError} (hs : step m = .fail e) (k : Nat) :
    stepN (k + 1) m = .fail e := by
  simp [stepN, hs]

theorem stepN_succ_crash {m : Machine} (hs : step m = .crash) (k : Nat) :
    stepN (k + 1) m = .crash := by
  simp [stepN, hs]

theorem stepN_succ_done {m mf : Machine} (hs : step m = .done mf) (k : Nat) :
    stepN (k + 1) m = .done mf := by
  simp [stepN, hs]

theorem step_bind_some {names : List String} {st : State} {rv : List LispValue}
    {s2 : State} {rv2 : List LispValue} (rest : List Instr) (ss : List State) (ps : List Nat)
    (h : bindArguments names st rv = some (s2, rv2)) :
    step ⟨Instr.BindArguments names :: rest, rv, ss, st, ps⟩ = .next ⟨rest, rv2, ss, s2, ps⟩ := by
  show (match bindArguments names st rv with
        | some (s', rv') => StepResult.next ⟨rest, rv', ss, s', ps⟩
        | none => StepResult.crash) = _
  rw [h]

theorem step_bind_none {names : List String} {st : State} {rv : List LispValue}
    (rest : List Instr) (ss : List State) (ps : List Nat)
    (h : bindArguments names st rv = none) :
    step ⟨Instr.BindArguments names :: rest, rv, ss, st, ps⟩ = .crash := by
  show (match bindArguments names st rv with
        | some (s', rv') => StepResult.next ⟨rest, rv', ss, s', ps⟩
        | none => StepResult.crash) = _
  rw [h]

theorem step_argument_some {rv : List LispValue} {offset : Nat} {value : LispValue}
    (rest : List Instr) (ss : List State) (st : State) (ps : List Nat)
    (h : rv.get? offset = some value) :
    step ⟨Instr.EvalAndPush (LispExpr.Argument offset) :: rest, rv, ss, st, ps⟩
      = .next ⟨rest, value :: rv, ss, st, ps⟩ := by
  show (match rv.get? offset with
        | some value => StepResult.next ⟨rest, value :: rv, ss, st, ps⟩
        | none => StepResult.crash) = _
  rw [h]

theorem step_argument_none {rv : List LispValue} {offset : Nat}
    (rest : List Instr) (ss : List State) (st : State) (ps : List Nat)
    (h : rv.get? offset = none) :
    step ⟨Instr.EvalAndPush (LispExpr.Argument offset) :: rest, rv, ss, st, ps⟩ = .crash := by
  show (match rv.get? offset with
        | some value => StepResult.next ⟨rest, value :: rv, ss, st, ps⟩
        | none => StepResult.crash) = _
  rw [h]

theorem step_eager_crash {funcName : String} {argCount : Nat} {rv : List LispValue}
    (rest : List Instr) (ss : List State) (st : State) (ps : List Nat)
    (h : evalFunctionEager funcName argCount rv = .inr ()) :
    step ⟨Instr.EvalFunctionEager funcName argCount :: rest, rv, ss, st, ps⟩ = .crash := by
  show stepEager funcName argCount rest rv ss st ps = _
  unfold stepEager
  rw [h]

theorem shift_mid {M m' : Machine} {d p n : Nat} (hs : step M = .next m')
    (hmid : ∀ k, k < n + 1 → ∃ mk, stepN k M = .next mk ∧ d < mk.states.length
      ∧ p + 1 ≤ mk.returnValues.length) :
    ∀ k, k < n → ∃ mk, stepN k m' = .next mk ∧ d < mk.states.length
      ∧ p + 1 ≤ mk.returnValues.length := by
  intro k hk
  obtain ⟨mk, hmk, a, b⟩ := hmid (k + 1) (by omega)
  rw [stepN_shift hs k] at hmk
  exact ⟨mk, hmk, a, b⟩

theorem shift_end {M m' mfin : Machine} {n : Nat} (hs : step M = .next m')
    (hend : stepN (n + 1) M = .next mfin) : stepN n m' = .next mfin := by
  rw [stepN_shift hs n] at hend
  exact hend

/-- Every `.next` outcome of the builtin arm of `EvalFunction` extends the
instruction stack with a segment free of `PopState`, pushes at most one
value, and leaves the frame stacks untouched. -/
theorem applyBuiltIn_next_shape {funcName : String} {exprList : List LispExpr}
    {rest : List Instr} {rv : List LispValue} {ss : List State} {st : State} {ps : List Nat}
    {m' : Machine}
    (h : applyBuiltIn funcName exprList rest rv ss st ps = .next m') :
    ∃ I rvtop, m' = ⟨I ++ rest, rvtop ++ rv, ss, st, ps⟩ ∧ countPop I = 0 := by
  unfold applyBuiltIn at h
  split_ifs at h
  · -- cond
    split at h
    · cases h
      exact ⟨[Instr.EvalAndPush _, Instr.PopCondPush _ _], [], rfl, rfl⟩
    · cases h
  · -- lambda
    split at h
    · split at h
      · split at h
        · cases h
          exact ⟨[], [LispValue.Function (LispFunc.Custom st _ _)], rfl, rfl⟩
        · cases h
      · cases h
    · cases h
  · -- define
    split at h
    · split at h
      · cases h
        exact ⟨[Instr.EvalAndPush _, Instr.PopAndSet _], [], rfl, rfl⟩
      · cases h
    · cases h
  · -- eager setup
    cases h
    refine ⟨exprList.map Instr.EvalAndPush ++ [Instr.EvalFunctionEager funcName exprList.length],
      [], by simp, ?_⟩
    rw [countPop_append, countPop_map_eval]
    rfl

/-- The `.next` outcome of the custom-function arm of `EvalFunction`,
spelled so the freshly pushed `PopState` is visible. -/
theorem applyCustom_next {closure : State} {args : List String} {body : LispExpr}
    {exprList : List LispExpr} {rest : List Instr} {rv : List LispValue} {ss : List State}
    {st : State} {ps : List Nat} {m' : Machine}
    (h : applyCustom closure args body exprList rest rv ss st ps = .next m') :
    m' = ⟨(exprList.reverse.map Instr.EvalAndPush ++
          (Instr.BindArguments args :: Instr.EvalAndPush body :: [Instr.PopState])) ++ rest,
        (st.map Prod.snd).reverse ++ rv, st :: ss,
        st.foldl (fun c nv => setVariable c nv.1 nv.2) closure, rv.length :: ps⟩ := by
  unfold applyCustom at h
  split_ifs at h
  cases h
  simp

theorem eq_of_stepN_one {M m' mk : Machine} (hs : step M = .next m')
    (h1 : stepN 1 M = .next mk) : mk = m' := by
  have h2 := (stepN_one hs).symm.trans h1
  cases h2
  rfl

/-- Frame locality: a machine whose instruction stack is a block `J` above
the frame-closing `PopState` of the current call — with the saved frames,
frame pointers and the protected value-stack suffix `rv'` below it — runs
until the first moment the saved-state stack returns to its pre-call depth;
at that moment the frame-closing `PopState` has executed, restoring the
saved caller state `sc`, the deeper stacks, and the value stack `rv'` with
exactly the single return value on top.  The hypotheses ask that all
strictly intermediate machines keep more frames than `states₀` and at least
one value above `rv'`. -/
theorem frame_locality :
    ∀ (n : Nat) (J : List Instr) (junk : List State) (pjunk : List Nat)
      (topk : List LispValue) (st sc : State) (states₀ : List State) (ps₀ : List Nat)
      (K : List Instr) (rv' : List LispValue) (mfin : Machine),
      countPop J = junk.length →
      junk.length = pjunk.length →
      (∀ q ∈ pjunk, rv'.length ≤ q) →
      (∀ k, k < n →
        ∃ mk, stepN k ⟨J ++ Instr.PopState :: K, topk ++ rv',
            junk ++ sc :: states₀, st, pjunk ++ rv'.length :: ps₀⟩ = .next mk
          ∧ states₀.length < mk.states.length
          ∧ rv'.length + 1 ≤ mk.returnValues.length) →
      stepN n ⟨J ++ Instr.PopState :: K, topk ++ rv', junk ++ sc :: states₀, st,
          pjunk ++ rv'.length :: ps₀⟩ = .next mfin →
      mfin.states.length = states₀.length →
      ∃ v, mfin = ⟨K, v :: rv', states₀, sc, ps₀⟩ := by
  intro n
  induction n with
  | zero =>
    intro J junk pjunk topk st sc states₀ ps₀ K rv' mfin hcount hlen hq hmid hend hdepth
    rw [stepN_zero] at hend
    cases hend
    simp at hdepth
    omega
  | succ n ih =>
    intro J junk pjunk topk st sc states₀ ps₀ K rv' mfin hcount hlen hq hmid hend hdepth
    obtain ⟨mk0, h0, hd0, hl0⟩ := hmid 0 (Nat.succ_pos n)
    rw [stepN_zero] at h0
    cases h0
    have htopk : topk ≠ [] := by
      intro he
      rw [he] at hl0
      simp at hl0
    obtain ⟨c, topk', rfl⟩ := List.exists_cons_of_ne_nil htopk
    cases J with
    | nil =>
      -- the distinguished frame-closing PopState executes now
      have hjunk : junk = [] := List.length_eq_zero.mp hcount.symm
      subst hjunk
      have hpjunk : pjunk = [] := List.length_eq_zero.mp hlen.symm
      subst hpjunk
      have hs : step ⟨[] ++ Instr.PopState :: K, (c :: topk') ++ rv', [] ++ sc :: states₀, st,
          [] ++ rv'.length :: ps₀⟩
          = .next ⟨K, c :: vtruncate rv'.length (topk' ++ rv'), states₀, sc, ps₀⟩ := rfl
      cases n with
      | zero =>
        have hend' := shift_end hs hend
        rw [stepN_zero] at hend'
        cases hend'
        refine ⟨c, ?_⟩
        have htr : vtruncate rv'.length (topk' ++ rv') = rv' := by
          unfold vtruncate
          rw [List.length_append, Nat.add_sub_cancel, List.drop_left]
        rw [htr]
      | succ n' =>
        obtain ⟨mk1, h1, hd1, _⟩ := hmid 1 (by omega)
        have h1e := eq_of_stepN_one hs h1
        subst h1e
        simp at hd1
    | cons i J' =>
      cases i with
      | EvalAndPush expr =>
        have hcJ : countPop J' = junk.length := hcount
        cases expr with
        | Value v =>
          have hs : step ⟨(Instr.EvalAndPush (LispExpr.Value v) :: J') ++ Instr.PopState :: K,
              (c :: topk') ++ rv', junk ++ sc :: states₀, st, pjunk ++ rv'.length :: ps₀⟩
              = .next ⟨J' ++ Instr.PopState :: K, (v :: c :: topk') ++ rv',
                  junk ++ sc :: states₀, st, pjunk ++ rv'.length :: ps₀⟩ := rfl
          exact ih J' junk pjunk (v :: c :: topk') st sc states₀ ps₀ K rv' mfin hcJ hlen hq
            (shift_mid hs hmid) (shift_end hs hend) hdepth
        | OpVar nm =>
          have hs : step ⟨(Instr.EvalAndPush (LispExpr.OpVar nm) :: J') ++ Instr.PopState :: K,
              (c :: topk') ++ rv', junk ++ sc :: states₀, st, pjunk ++ rv'.length :: ps₀⟩
              = .next ⟨J' ++ Instr.PopState :: K, (getVariableValue st nm :: c :: topk') ++ rv',
                  junk ++ sc :: states₀, st, pjunk ++ rv'.length :: ps₀⟩ := rfl
          exact ih J' junk pjunk (getVariableValue st nm :: c :: topk') st sc states₀ ps₀ K rv'
            mfin hcJ hlen hq (shift_mid hs hmid) (shift_end hs hend) hdepth
        | Argument offset =>
          cases hg : ((c :: topk') ++ rv').get? offset with
          | none =>
            have hs := @step_argument_none ((c :: topk') ++ rv') offset
              (J' ++ Instr.PopState :: K) (junk ++ sc :: states₀) st
              (pjunk ++ rv'.length :: ps₀) hg
            cases ((stepN_succ_crash hs n).symm.trans hend)
          | some value =>
            have hs := @step_argument_some ((c :: topk') ++ rv') offset value
              (J' ++ Instr.PopState :: K) (junk ++ sc :: states₀) st
              (pjunk ++ rv'.length :: ps₀) hg
            exact ih J' junk pjunk (value :: c :: topk') st sc states₀ ps₀ K rv' mfin hcJ hlen
              hq (shift_mid hs hmid) (shift_end hs hend) hdepth
        | SubExpr exprVec =>
          cases exprVec with
          | nil =>
            have hs : step ⟨(Instr.EvalAndPush (LispExpr.SubExpr []) :: J') ++
                Instr.PopState :: K, (c :: topk') ++ rv', junk ++ sc :: states₀, st,
                pjunk ++ rv'.length :: ps₀⟩ = .crash := rfl
            cases ((stepN_succ_crash hs n).symm.trans hend)
          | cons hd tl =>
            have hs : step ⟨(Instr.EvalAndPush (LispExpr.SubExpr (hd :: tl)) :: J') ++
                Instr.PopState :: K, (c :: topk') ++ rv', junk ++ sc :: states₀, st,
                pjunk ++ rv'.length :: ps₀⟩
                = .next ⟨(Instr.EvalAndPush hd :: Instr.EvalFunction tl :: J') ++
                    Instr.PopState :: K, (c :: topk') ++ rv', junk ++ sc :: states₀, st,
                    pjunk ++ rv'.length :: ps₀⟩ := rfl
            exact ih (Instr.EvalAndPush hd :: Instr.EvalFunction tl :: J') junk pjunk
              (c :: topk') st sc states₀ ps₀ K rv' mfin hcJ hlen hq (shift_mid hs hmid)
              (shift_end hs hend) hdepth
      | EvalFunction es =>
        have hcJ : countPop J' = junk.length := hcount
        cases c with
        | Truth b =>
          have hs : step ⟨(Instr.EvalFunction es :: J') ++ Instr.PopState :: K,
              (LispValue.Truth b :: topk') ++ rv', junk ++ sc :: states₀, st,
              pjunk ++ rv'.length :: ps₀⟩
              = .fail EvaluationError.NonFunctionApplication := rfl
          cases ((stepN_succ_fail hs n).symm.trans hend)
        | Integer i =>
          have hs : step ⟨(Instr.EvalFunction es :: J') ++ Instr.PopState :: K,
              (LispValue.Integer i :: topk') ++ rv', junk ++ sc :: states₀, st,
              pjunk ++ rv'.length :: ps₀⟩
              = .fail EvaluationError.NonFunctionApplication := rfl
          cases ((stepN_succ_fail hs n).symm.trans hend)
        | SubValue l =>
          have hs : step ⟨(Instr.EvalFunction es :: J') ++ Instr.PopState :: K,
              (LispValue.SubValue l :: topk') ++ rv', junk ++ sc :: states₀, st,
              pjunk ++ rv'.length :: ps₀⟩
              = .fail EvaluationError.NonFunctionApplication := rfl
          cases ((stepN_succ_fail hs n).symm.trans hend)
        | Function f =>
          cases f with
          | BuiltIn name =>
            have hs0 : step ⟨(Instr.EvalFunction es :: J') ++ Instr.PopState :: K,
                (LispValue.Function (LispFunc.BuiltIn name) :: topk') ++ rv',
                junk ++ sc :: states₀, st, pjunk ++ rv'.length :: ps₀⟩
                = applyBuiltIn name es (J' ++ Instr.PopState :: K) (topk' ++ rv')
                    (junk ++ sc :: states₀) st (pjunk ++ rv'.length :: ps₀) := rfl
            cases ha : applyBuiltIn name es (J' ++ Instr.PopState :: K) (topk' ++ rv')
                (junk ++ sc :: states₀) st (pjunk ++ rv'.length :: ps₀) with
            | next m1 =>
              obtain ⟨I, rvtop, hm1, hIc⟩ := applyBuiltIn_next_shape ha
              have hs : step ⟨(Instr.EvalFunction es :: J') ++ Instr.PopState :: K,
                  (LispValue.Function (LispFunc.BuiltIn name) :: topk') ++ rv',
                  junk ++ sc :: states₀, st, pjunk ++ rv'.length :: ps₀⟩
                  = .next ⟨(I ++ J') ++ Instr.PopState :: K, (rvtop ++ topk') ++ rv',
                      junk ++ sc :: states₀, st, pjunk ++ rv'.length :: ps₀⟩ := by
                rw [hs0, ha, hm1]
                simp
              have hcI : countPop (I ++ J') = junk.length := by
                rw [countPop_append, hIc]
                simpa using hcJ
              exact ih (I ++ J') junk pjunk (rvtop ++ topk') st sc states₀ ps₀ K rv' mfin hcI
                hlen hq (shift_mid hs hmid) (shift_end hs hend) hdepth
            | done m1 =>
              have hs := hs0.trans ha
              cases ((stepN_succ_done hs n).symm.trans hend)
            | fail e =>
              have hs := hs0.trans ha
              cases ((stepN_succ_fail hs n).symm.trans hend)
            | crash =>
              have hs := hs0.trans ha
              cases ((stepN_succ_crash hs n).symm.trans hend)
          | Custom cl as bd =>
            have hs0 : step ⟨(Instr.EvalFunction es :: J') ++ Instr.PopState :: K,
                (LispValue.Function (LispFunc.Custom cl as bd) :: topk') ++ rv',
                junk ++ sc :: states₀, st, pjunk ++ rv'.length :: ps₀⟩
                = applyCustom cl as bd es (J' ++ Instr.PopState :: K) (topk' ++ rv')
                    (junk ++ sc :: states₀) st (pjunk ++ rv'.length :: ps₀) := rfl
            cases ha : applyCustom cl as bd es (J' ++ Instr.PopState :: K) (topk' ++ rv')
                (junk ++ sc :: states₀) st (pjunk ++ rv'.length :: ps₀) with
            | next m1 =>
              have hm1 := applyCustom_next ha
              have hs : step ⟨(Instr.EvalFunction es :: J') ++ Instr.PopState :: K,
                  (LispValue.Function (LispFunc.Custom cl as bd) :: topk') ++ rv',
                  junk ++ sc :: states₀, st, pjunk ++ rv'.length :: ps₀⟩
                  = .next ⟨((es.reverse.map Instr.EvalAndPush ++
                      (Instr.BindArguments as :: Instr.EvalAndPush bd ::
                        [Instr.PopState])) ++ J') ++ Instr.PopState :: K,
                      ((st.map Prod.snd).reverse ++ topk') ++ rv',
                      (st :: junk) ++ sc :: states₀,
                      st.foldl (fun c nv => setVariable c nv.1 nv.2) cl,
                      ((topk' ++ rv').length :: pjunk) ++ rv'.length :: ps₀⟩ := by
                rw [hs0, ha, hm1]
                simp
              have hcI : countPop ((es.reverse.map Instr.EvalAndPush ++
                  (Instr.BindArguments as :: Instr.EvalAndPush bd ::
                    [Instr.PopState])) ++ J') = (st :: junk).length := by
                rw [countPop_append, countPop_append, countPop_map_eval]
                have : countPop (Instr.BindArguments as :: Instr.EvalAndPush bd ::
                    [Instr.PopState]) = 1 := rfl
                rw [this]
                simp [hcJ]
                omega
              have hlen2 : (st :: junk).length = ((topk' ++ rv').length :: pjunk).length := by
                simpa using hlen
              have hq2 : ∀ q ∈ (topk' ++ rv').length :: pjunk, rv'.length ≤ q := by
                intro q hqm
                rcases List.mem_cons.mp hqm with hql | hqr
                · subst hql
                  simp
                · exact hq q hqr
              exact ih ((es.reverse.map Instr.EvalAndPush ++
                  (Instr.BindArguments as :: Instr.EvalAndPush bd ::
                    [Instr.PopState])) ++ J') (st :: junk)
                ((topk' ++ rv').length :: pjunk) ((st.map Prod.snd).reverse ++ topk')
                (st.foldl (fun c nv => setVariable c nv.1 nv.2) cl) sc states₀ ps₀ K rv' mfin
                hcI hlen2 hq2 (shift_mid hs hmid) (shift_end hs hend) hdepth
            | done m1 =>
              have hs := hs0.trans ha
              cases ((stepN_succ_done hs n).symm.trans hend)
            | fail e =>
              have hs := hs0.trans ha
              cases ((stepN_succ_fail hs n).symm.trans hend)
            | crash =>
              have hs := hs0.trans ha
              cases ((stepN_succ_crash hs n).symm.trans hend)
      | PopCondPush a b =>
        have hcJ : countPop J' = junk.length := hcount
        cases c with
        | Truth bb =>
          have hs : step ⟨(Instr.PopCondPush a b :: J') ++ Instr.PopState :: K,
              (LispValue.Truth bb :: topk') ++ rv', junk ++ sc :: states₀, st,
              pjunk ++ rv'.length :: ps₀⟩
              = .next ⟨(Instr.EvalAndPush (if bb then a else b) :: J') ++ Instr.PopState :: K,
                  topk' ++ rv', junk ++ sc :: states₀, st, pjunk ++ rv'.length :: ps₀⟩ := rfl
          -- the remaining block keeps at least one value above rv' by hmid
          exact ih (Instr.EvalAndPush (if bb then a else b) :: J') junk pjunk topk' st sc
            states₀ ps₀ K rv' mfin hcJ hlen hq (shift_mid hs hmid) (shift_end hs hend) hdepth
        | Integer i =>
          have hs : step ⟨(Instr.PopCondPush a b :: J') ++ Instr.PopState :: K,
              (LispValue.Integer i :: topk') ++ rv', junk ++ sc :: states₀, st,
              pjunk ++ rv'.length :: ps₀⟩
              = .fail EvaluationError.ArgumentTypeMismatch := rfl
          cases ((stepN_succ_fail hs n).symm.trans hend)
        | SubValue l =>
          have hs : step ⟨(Instr.PopCondPush a b :: J') ++ Instr.PopState :: K,
              (LispValue.SubValue l :: topk') ++ rv', junk ++ sc :: states₀, st,
              pjunk ++ rv'.length :: ps₀⟩
              = .fail EvaluationError.ArgumentTypeMismatch := rfl
          cases ((stepN_succ_fail hs n).symm.trans hend)
        | Function f =>
          have hs : step ⟨(Instr.PopCondPush a b :: J') ++ Instr.PopState :: K,
              (LispValue.Function f :: topk') ++ rv', junk ++ sc :: states₀, st,
              pjunk ++ rv'.length :: ps₀⟩
              = .fail EvaluationError.ArgumentTypeMismatch := rfl
          cases ((stepN_succ_fail hs n).symm.trans hend)
      | PopAndSet nm =>
        have hcJ : countPop J' = junk.length := hcount
        have hs : step ⟨(Instr.PopAndSet nm :: J') ++ Instr.PopState :: K,
            (c :: topk') ++ rv', junk ++ sc :: states₀, st, pjunk ++ rv'.length :: ps₀⟩
            = .next ⟨J' ++ Instr.PopState :: K, (LispValue.SubValue [] :: topk') ++ rv',
                junk ++ sc :: states₀, setVariable st nm c, pjunk ++ rv'.length :: ps₀⟩ := rfl
        exact ih J' junk pjunk (LispValue.SubValue [] :: topk') (setVariable st nm c) sc
          states₀ ps₀ K rv' mfin hcJ hlen hq (shift_mid hs hmid) (shift_end hs hend) hdepth
      | PopState =>
        -- a nested frame returns
        have hcJ : countPop J' + 1 = junk.length := hcount
        have hj : junk ≠ [] := by
          intro he
          rw [he] at hcJ
          simp at hcJ
        obtain ⟨sj, junk', rfl⟩ := List.exists_cons_of_ne_nil hj
        have hpj : pjunk ≠ [] := by
          intro he
          rw [he] at hlen
          simp at hlen
        obtain ⟨pj, pjunk', rfl⟩ := List.exists_cons_of_ne_nil hpj
        have hpjge : rv'.length ≤ pj := hq pj (by simp)
        have htr : c :: vtruncate pj (topk' ++ rv')
            = (c :: topk'.drop (topk'.length + rv'.length - pj)) ++ rv' := by
          unfold vtruncate
          rw [List.length_append, drop_append_of_le (by omega)]
          rfl
        have hs : step ⟨(Instr.PopState :: J') ++ Instr.PopState :: K, (c :: topk') ++ rv',
            (sj :: junk') ++ sc :: states₀, st, (pj :: pjunk') ++ rv'.length :: ps₀⟩
            = .next ⟨J' ++ Instr.PopState :: K,
                (c :: topk'.drop (topk'.length + rv'.length - pj)) ++ rv',
                junk' ++ sc :: states₀, sj, pjunk' ++ rv'.length :: ps₀⟩ := by
          rw [show step ⟨(Instr.PopState :: J') ++ Instr.PopState :: K, (c :: topk') ++ rv',
              (sj :: junk') ++ sc :: states₀, st, (pj :: pjunk') ++ rv'.length :: ps₀⟩
              = .next ⟨J' ++ Instr.PopState :: K, c :: vtruncate pj (topk' ++ rv'),
                  junk' ++ sc :: states₀, sj, pjunk' ++ rv'.length :: ps₀⟩ from rfl, htr]
        have hcJ' : countPop J' = junk'.length := by
          simp at hcJ
          omega
        have hlen' : junk'.length = pjunk'.length := by
          simpa using hlen
        have hq' : ∀ q ∈ pjunk', rv'.length ≤ q := fun q hqm => hq q (by simp [hqm])
        exact ih J' junk' pjunk' (c :: topk'.drop (topk'.length + rv'.length - pj)) sj sc
          states₀ ps₀ K rv' mfin hcJ' hlen' hq' (shift_mid hs hmid) (shift_end hs hend) hdepth
      | BindArguments names =>
        have hcJ : countPop J' = junk.length := hcount
        cases hb : bindArguments names st ((c :: topk') ++ rv') with
        | none =>
          have hs := step_bind_none (J' ++ Instr.PopState :: K) (junk ++ sc :: states₀)
            (pjunk ++ rv'.length :: ps₀) hb
          cases ((stepN_succ_crash hs n).symm.trans hend)
        | some pair =>
          obtain ⟨s2, rv2⟩ := pair
          have hs := step_bind_some (J' ++ Instr.PopState :: K) (junk ++ sc :: states₀)
            (pjunk ++ rv'.length :: ps₀) hb
          obtain ⟨hble, hbdrop⟩ := bindArguments_some hb
          cases n with
          | zero =>
            have hend' := shift_end hs hend
            rw [stepN_zero] at hend'
            cases hend'
            simp at hdepth
            omega
          | succ n' =>
            obtain ⟨mk1, h1, _, hl1⟩ := hmid 1 (by omega)
            have h1e := eq_of_stepN_one hs h1
            subst h1e
            have hnle : names.length ≤ (c :: topk').length := by
              subst hbdrop
              simp at hl1 hble ⊢
              omega
            rw [drop_append_of_le hnle] at hbdrop
            subst hbdrop
            exact ih J' junk pjunk ((c :: topk').drop names.length) s2 sc states₀ ps₀ K rv'
              mfin hcJ hlen hq (shift_mid hs hmid) (shift_end hs hend) hdepth
      | EvalFunctionEager name argc =>
        have hcJ : countPop J' = junk.length := hcount
        cases he : evalFunctionEager name argc ((c :: topk') ++ rv') with
        | inl exc =>
          cases exc with
          | ok rv2 =>
            have hs := step_eager_ok (J' ++ Instr.PopState :: K) (junk ++ sc :: states₀) st
              (pjunk ++ rv'.length :: ps₀) he
            cases n with
            | zero =>
              have hend' := shift_end hs hend
              rw [stepN_zero] at hend'
              cases hend'
              simp at hdepth
              omega
            | succ n' =>
              obtain ⟨mk1, h1, _, hl1⟩ := hmid 1 (by omega)
              have h1e := eq_of_stepN_one hs h1
              subst h1e
              obtain ⟨w, j, hj, hrv2⟩ := evalFunctionEager_ok_shape he
              have hjle : j ≤ (c :: topk').length := by
                subst hrv2
                simp at hl1 hj ⊢
                omega
              rw [drop_append_of_le hjle] at hrv2
              subst hrv2
              exact ih J' junk pjunk (w :: (c :: topk').drop j) st sc states₀ ps₀ K rv' mfin
                hcJ hlen hq (shift_mid hs hmid) (shift_end hs hend) hdepth
          | error e =>
            have hs := step_eager_err (J' ++ Instr.PopState :: K) (junk ++ sc :: states₀) st
              (pjunk ++ rv'.length :: ps₀) he
            cases ((stepN_succ_fail hs n).symm.trans hend)
        | inr u =>
          cases u
          have hs := step_eager_crash (J' ++ Instr.PopState :: K) (junk ++ sc :: states₀) st
            (pjunk ++ rv'.length :: ps₀) he
          cases ((stepN_succ_crash hs n).symm.trans hend)

end OldEval

/-! ## The claims -/

namespace OldEval

/-- C3 (code bug evidence): re-defining the already-bound name `x` at top
level succeeds, silently replaces the first binding with the new value, and
returns the empty list — it does not fail with `BadDefine`. -/
theorem redefine_overwrites :
    eval 6 (defineProg "x" (intE 1)) State.new
      = .ok (LispValue.SubValue [])
          [("#t", LispValue.Truth true), ("#f", LispValue.Truth false),
           ("x", LispValue.Integer 1)]
  ∧ eval 6 (defineProg "x" (intE 1000))
        [("#t", LispValue.Truth true), ("#f", LispValue.Truth false),
         ("x", LispValue.Integer 1)]
      = .ok (LispValue.SubValue [])
          [("#t", LispValue.Truth true), ("#f", LispValue.Truth false),
           ("x", LispValue.Integer 1000)]
  ∧ eval 6 (defineProg "x" (intE 1000))
        [("#t", LispValue.Truth true), ("#f", LispValue.Truth false),
         ("x", LispValue.Integer 1)]
      ≠ .fail EvaluationError.BadDefine := by
  refine ⟨rfl, rfl, ?_⟩
  rw [show eval 6 (defineProg "x" (intE 1000))
      [("#t", LispValue.Truth true), ("#f", LispValue.Truth false),
       ("x", LispValue.Integer 1)]
    = .ok (LispValue.SubValue [])
        [("#t", LispValue.Truth true), ("#f", LispValue.Truth false),
         ("x", LispValue.Integer 1000)] from rfl]
  exact fun h => nomatch h

/-- C4 (code bug evidence): applying a custom function of arity 2 to a
single argument does not build a curried continuation; it fails with
`ArgumentCountMismatch`. -/
theorem underapplication_fails :
    eval 5 (LispExpr.SubExpr [
        LispExpr.SubExpr [LispExpr.OpVar "lambda",
          LispExpr.SubExpr [LispExpr.OpVar "x", LispExpr.OpVar "y"], LispExpr.OpVar "x"],
        intE 1]) State.new
      = .fail EvaluationError.ArgumentCountMismatch := rfl

set_option maxRecDepth 8000 in
/-- C5 (code bug evidence): `add` recurses on itself only in tail position,
yet the saved-frame stack peaks at `y + 1` frames when evaluating
`(add 0 y)`: 3 frames for `y = 2` and 5 frames for `y = 4`.  Self tail
calls grow the frame stack linearly instead of reusing the frame. -/
theorem tail_recursion_frame_growth :
    maxFrames 120 (initMachine (addCall 0 2) stateWithAdd) = 3
  ∧ maxFrames 200 (initMachine (addCall 0 4) stateWithAdd) = 5 := ⟨rfl, rfl⟩

/-- C6: `sub1` applied to the integer literal `n` yields `n - 1` for
positive `n` and fails with `SubZero` exactly when `n = 0`. -/
theorem sub1_semantics (n : Nat) :
    eval 6 (LispExpr.SubExpr [LispExpr.OpVar "sub1", intE n]) State.new
      = if n = 0 then .fail EvaluationError.SubZero
        else .ok (LispValue.Integer (n - 1)) State.new := by
  cases n with
  | zero => rfl
  | succ m =>
    rw [if_neg (Nat.succ_ne_zero m)]
    have h4 : stepN 4 (initMachine (LispExpr.SubExpr [LispExpr.OpVar "sub1",
          intE (m + 1)]) State.new)
        = .next ⟨[Instr.EvalFunctionEager "sub1" 1], [LispValue.Integer (m + 1)],
            [], State.new, [0]⟩ := rfl
    have he : evalFunctionEager "sub1" 1 [LispValue.Integer (m + 1)]
        = .inl (.ok [LispValue.Integer m]) := by
      unfold evalFunctionEager
      rw [if_neg (by decide), if_neg (by decide), if_neg (by decide), if_neg (by decide),
        if_neg (by decide), if_pos rfl, if_pos rfl]
      show (if m + 1 > 0 then Sum.inl (Except.ok (LispValue.Integer (m + 1 - 1) :: []))
          else Sum.inl (Except.error EvaluationError.SubZero)) = _
      rw [if_pos (Nat.succ_pos m)]
      rfl
    have h5 := stepN_add h4 (stepN_one (step_eager_ok [] [] State.new [0] he))
    exact @run_of_stepN _ 1 _ _ h5

/-- C9: `(cdr (list 1 2 3 4))` returns the list value that pretty-prints as
`(1 2 3)`, and `(null? (list))` returns `#t`. -/
theorem cdr_null_scenarios :
    eval 13 (cdrProg (listProg [LispValue.Integer 1, LispValue.Integer 2,
        LispValue.Integer 3, LispValue.Integer 4])) State.new
      = .ok (LispValue.SubValue [LispValue.Integer 1, LispValue.Integer 2,
          LispValue.Integer 3]) State.new
  ∧ prettyPrint (LispValue.SubValue [LispValue.Integer 1, LispValue.Integer 2,
        LispValue.Integer 3]) = "(1 2 3)"
  ∧ eval 9 (LispExpr.SubExpr [LispExpr.OpVar "null?", listProg []]) State.new
      = .ok (LispValue.Truth true) State.new := ⟨rfl, rfl, rfl⟩

/-- C1 (counterexample): on `(car (list 1 2))` the evaluator returns `2`,
the last element, not the first element `1` required by the claim. -/
theorem car_head_counterexample :
    eval 11 (carProg (listProg [LispValue.Integer 1, LispValue.Integer 2])) State.new
      = .ok (LispValue.Integer 2) State.new
  ∧ LispValue.Integer 2 ≠ LispValue.Integer 1 := by
  refine ⟨rfl, ?_⟩
  simp

/-- C2 (counterexample): `(cons 1 (cons 2 (list)))` evaluates to the list
value stored as `[2, 1]`, while `(list 1 2)` evaluates to the one stored as
`[1, 2]`; they are not structurally equal. -/
theorem cons_nest_counterexample :
    eval 15 (consProg [LispValue.Integer 1, LispValue.Integer 2]) State.new
      = .ok (LispValue.SubValue [LispValue.Integer 2, LispValue.Integer 1]) State.new
  ∧ eval 7 (listProg [LispValue.Integer 1, LispValue.Integer 2]) State.new
      = .ok (LispValue.SubValue [LispValue.Integer 1, LispValue.Integer 2]) State.new
  ∧ LispValue.SubValue [LispValue.Integer 2, LispValue.Integer 1]
      ≠ LispValue.SubValue [LispValue.Integer 1, LispValue.Integer 2] := by
  refine ⟨rfl, rfl, ?_⟩
  simp

/-- C1 (amended): for every non-empty list built by `(list x₁ … xₙ)`, `car`
returns the LAST element `xₙ` and `cdr` returns the list without its last
element, `(x₁ … xₙ₋₁)` — the storage keeps the elements in left-to-right
order and `car`/`cdr` operate on the end of the storage. -/
theorem car_cdr_of_list (xs : List LispValue) (h : xs ≠ []) :
    eval (xs.length + 9) (carProg (listProg xs)) State.new
      = .ok (xs.getLast h) State.new
  ∧ eval (xs.length + 9) (cdrProg (listProg xs)) State.new
      = .ok (LispValue.SubValue xs.dropLast) State.new := by
  constructor
  · have h6 : stepN 6 (initMachine (carProg (listProg xs)) State.new)
        = .next ⟨(xs.map LispExpr.Value).map Instr.EvalAndPush ++
            [Instr.EvalFunctionEager "list" (xs.map LispExpr.Value).length,
             Instr.EvalFunctionEager "car" 1], [], [], State.new, [0]⟩ := rfl
    have hblock := stepN_pushValues xs
      [Instr.EvalFunctionEager "list" (xs.map LispExpr.Value).length,
       Instr.EvalFunctionEager "car" 1] [] [] State.new [0]
    have h7 := stepN_one (step_eager_ok [Instr.EvalFunctionEager "car" 1] [] State.new [0]
      (evalFunctionEager_list xs))
    have hcar : evalFunctionEager "car" 1 [LispValue.SubValue xs]
        = .inl (.ok [xs.getLast h]) := by
      unfold evalFunctionEager
      rw [if_neg (by decide), if_pos rfl, if_pos rfl]
      show (match xs.getLast? with
            | some car => Sum.inl (Except.ok (car :: ([] : List LispValue)))
            | none => Sum.inl (Except.error EvaluationError.EmptyList)) = _
      rw [List.getLast?_eq_getLast_of_ne_nil h]
    have h8 := stepN_one (step_eager_ok [] [] State.new [0] hcar)
    have hpath := stepN_add (stepN_add (stepN_add h6 hblock) h7) h8
    have hn : xs.length + 9 = (((6 + xs.length) + 1) + 1) + 1 := by omega
    show run (xs.length + 9) _ = _
    rw [hn]
    exact @run_of_stepN _ 1 _ _ hpath
  · have h6 : stepN 6 (initMachine (cdrProg (listProg xs)) State.new)
        = .next ⟨(xs.map LispExpr.Value).map Instr.EvalAndPush ++
            [Instr.EvalFunctionEager "list" (xs.map LispExpr.Value).length,
             Instr.EvalFunctionEager "cdr" 1], [], [], State.new, [0]⟩ := rfl
    have hblock := stepN_pushValues xs
      [Instr.EvalFunctionEager "list" (xs.map LispExpr.Value).length,
       Instr.EvalFunctionEager "cdr" 1] [] [] State.new [0]
    have h7 := stepN_one (step_eager_ok [Instr.EvalFunctionEager "cdr" 1] [] State.new [0]
      (evalFunctionEager_list xs))
    have hcdr : evalFunctionEager "cdr" 1 [LispValue.SubValue xs]
        = .inl (.ok [LispValue.SubValue xs.dropLast]) := by
      unfold evalFunctionEager
      rw [if_neg (by decide), if_neg (by decide), if_pos rfl, if_pos rfl]
      show (match xs.getLast? with
            | some val =>
              Sum.inl (Except.ok (LispValue.SubValue xs.dropLast :: ([] : List LispValue)))
            | none => Sum.inl (Except.error EvaluationError.EmptyList)) = _
      rw [List.getLast?_eq_getLast_of_ne_nil h]
    have h8 := stepN_one (step_eager_ok [] [] State.new [0] hcdr)
    have hpath := stepN_add (stepN_add (stepN_add h6 hblock) h7) h8
    have hn : xs.length + 9 = (((6 + xs.length) + 1) + 1) + 1 := by omega
    show run (xs.length + 9) _ = _
    rw [hn]
    exact @run_of_stepN _ 1 _ _ hpath

/-- C1 (witness): instantiating the amended statement at the three-element
list `(list 1 2 3)`: `car` yields `3`, `cdr` yields the storage `[1, 2]`. -/
theorem car_cdr_of_list_witness :
    ([LispValue.Integer 1, LispValue.Integer 2, LispValue.Integer 3] : List LispValue) ≠ []
  ∧ eval 12 (carProg (listProg [LispValue.Integer 1, LispValue.Integer 2,
      LispValue.Integer 3])) State.new = .ok (LispValue.Integer 3) State.new
  ∧ eval 12 (cdrProg (listProg [LispValue.Integer 1, LispValue.Integer 2,
      LispValue.Integer 3])) State.new
      = .ok (LispValue.SubValue [LispValue.Integer 1, LispValue.Integer 2]) State.new := by
  have hne : ([LispValue.Integer 1, LispValue.Integer 2, LispValue.Integer 3] :
      List LispValue) ≠ [] := fun hh => nomatch hh
  exact ⟨hne,
    (car_cdr_of_list [LispValue.Integer 1, LispValue.Integer 2, LispValue.Integer 3] hne).1,
    (car_cdr_of_list [LispValue.Integer 1, LispValue.Integer 2, LispValue.Integer 3] hne).2⟩

/-- C2 (amended): nesting `cons` over the empty list in REVERSED order
reproduces `(list x₁ … xₙ)`: `(cons xₙ (… (cons x₁ (list)) …))` evaluates to
the same value as `(list x₁ … xₙ)`; `cons x l` appends `x` at the end of the
storage of `l` (the position `car` reads). -/
theorem cons_nest_reversed_eq_list (xs : List LispValue) :
    eval (consCost xs.reverse + 1) (consProg xs.reverse) State.new
      = .ok (LispValue.SubValue xs) State.new
  ∧ eval (xs.length + 5) (listProg xs) State.new
      = .ok (LispValue.SubValue xs) State.new := by
  constructor
  · have h := @run_of_stepN _ 1 _ _ (stepN_consProg xs.reverse [] [] [] [0])
    rw [List.reverse_reverse] at h
    exact h
  · have h3 : stepN 3 (initMachine (listProg xs) State.new)
        = .next ⟨(xs.map LispExpr.Value).map Instr.EvalAndPush ++
            [Instr.EvalFunctionEager "list" (xs.map LispExpr.Value).length],
            [], [], State.new, [0]⟩ := rfl
    have hblock := stepN_pushValues xs
      [Instr.EvalFunctionEager "list" (xs.map LispExpr.Value).length] [] [] State.new [0]
    have h4 := stepN_one (step_eager_ok [] [] State.new [0] (evalFunctionEager_list xs))
    have hpath := stepN_add (stepN_add h3 hblock) h4
    have hn : xs.length + 5 = ((3 + xs.length) + 1) + 1 := by omega
    show run (xs.length + 5) _ = _
    rw [hn]
    exact @run_of_stepN _ 1 _ _ hpath

/-- C7 (amended): a free symbol that is neither bound in the initial
environment nor one of the recognized builtin names evaluates, on its own,
to a builtin-tagged function value; the failure `UnknownVariable(name)`
arises when such a symbol is APPLIED, here as the head of a call with no
arguments. -/
theorem unknown_name_application_fails (name : String)
    (h : name ∉ ["#t", "#f", "cond", "lambda", "define", "list", "car", "cdr",
        "null?", "add1", "sub1", "cons", "zero?"]) :
    eval 4 (LispExpr.SubExpr [LispExpr.OpVar name]) State.new
      = .fail (EvaluationError.UnknownVariable name) := by
  simp only [List.mem_cons, List.not_mem_nil, or_false, not_or] at h
  obtain ⟨ht, hf, hc, hl, hd, hli, hca, hcd, hnu, ha1, hs1, hco, hz⟩ := h
  have h1 : stepN 1 (initMachine (LispExpr.SubExpr [LispExpr.OpVar name]) State.new)
      = .next ⟨[Instr.EvalAndPush (LispExpr.OpVar name), Instr.EvalFunction []],
          [], [], State.new, [0]⟩ := rfl
  have hv : getVariableValue State.new name
      = LispValue.Function (LispFunc.BuiltIn name) := by
    simp only [getVariableValue, State.new, mapGet]
    rw [if_neg (fun e => ht e.symm), if_neg (fun e => hf e.symm)]
  have h2 : stepN 1 ⟨[Instr.EvalAndPush (LispExpr.OpVar name), Instr.EvalFunction []],
        [], [], State.new, [0]⟩
      = .next ⟨[Instr.EvalFunction []], [LispValue.Function (LispFunc.BuiltIn name)],
          [], State.new, [0]⟩ := by
    rw [show stepN 1 ⟨[Instr.EvalAndPush (LispExpr.OpVar name), Instr.EvalFunction []],
          [], [], State.new, [0]⟩
        = .next ⟨[Instr.EvalFunction []], [getVariableValue State.new name],
            [], State.new, [0]⟩ from rfl, hv]
  have h3 : stepN 1 ⟨[Instr.EvalFunction []],
        [LispValue.Function (LispFunc.BuiltIn name)], [], State.new, [0]⟩
      = .next ⟨[Instr.EvalFunctionEager name 0], [], [], State.new, [0]⟩ := by
    refine stepN_one ?_
    show applyBuiltIn name [] [] [] [] State.new [0] = _
    exact applyBuiltIn_other [] [] [] [] State.new [0] hc hl hd
  have he := @evalFunctionEager_unknown name 0 []
    (by simp [hli, hca, hcd, hnu, ha1, hs1, hco, hz])
  have h4 := step_eager_err [] [] State.new [0] he
  have hpath := stepN_add (stepN_add h1 h2) h3
  exact (@run_of_stepN _ 1 _ _ hpath).trans (@run_fail_of_step 0 _ _ h4)

/-- C7 (witness): instantiating the amended statement at the unknown name
`frobnicate`. -/
theorem unknown_name_application_fails_witness :
    ("frobnicate" ∉ ["#t", "#f", "cond", "lambda", "define", "list", "car", "cdr",
        "null?", "add1", "sub1", "cons", "zero?"])
  ∧ eval 4 (LispExpr.SubExpr [LispExpr.OpVar "frobnicate"]) State.new
      = .fail (EvaluationError.UnknownVariable "frobnicate") :=
  ⟨by decide, unknown_name_application_fails "frobnicate" (by decide)⟩

/-- C7 (counterexample): an expression referencing the unknown free symbol
`frobnicate` does not fail; the bare reference evaluates to a builtin-tagged
function value. -/
theorem unknown_symbol_reference_ok :
    eval 2 (LispExpr.OpVar "frobnicate") State.new
      = .ok (LispValue.Function (LispFunc.BuiltIn "frobnicate")) State.new
  ∧ eval 2 (LispExpr.OpVar "frobnicate") State.new
      ≠ .fail (EvaluationError.UnknownVariable "frobnicate") := by
  refine ⟨rfl, ?_⟩
  rw [show eval 2 (LispExpr.OpVar "frobnicate") State.new
    = .ok (LispValue.Function (LispFunc.BuiltIn "frobnicate")) State.new from rfl]
  exact fun h => nomatch h

end OldEval

namespace NewResolver

/-- C8 (code bug evidence): finalizing the application `(f x (lambda (y) x))`
with `x` bound to the argument slot (offset 0, scope 0) and its moveable
cell still true emits moveable arguments twice: the occurrence of `x` inside
the lambda of the rightmost operand is resolved first (right-to-left)
against a clone of the map and marked `moveable = true` without clearing
the shared cell, after which the non-rightmost plain occurrence of `x` is
also marked `moveable = true`. -/
theorem finalize_double_moveable :
    finalize
      (LispExpr.Call [LispExpr.OpVar "f", LispExpr.OpVar "x",
        LispExpr.Call [LispExpr.Macro LispMacro.Lambda,
          LispExpr.Call [LispExpr.OpVar "y"], LispExpr.OpVar "x"]])
      1 [("x", (0, 0, true))] false none
    = .ok (FinalizedExpr.FunctionCall (FinalizedExpr.Variable "f")
        [FinalizedExpr.Argument 0 0 true,
         FinalizedExpr.Lambda 1 1 (FinalizedExpr.Argument 0 0 true)] false false,
        [("x", (0, 0, false))]) := by
  simp [finalize, finalizeOperands, mapGet, mapInsert, mergeMoves, insertParams,
    bind, Except.bind]

end NewResolver

namespace OldEval

/-- C10: frame effect of a completed custom-function application.  Starting
from a machine about to execute `EvalFunction exprList` with a custom
function of matching arity on top of the value stack, suppose the run
returns after `n + 1` steps: every strictly intermediate machine keeps the
callee's frame open (more saved states than the caller had, and at least
one value above the caller's value stack `rv'`), and at step `n + 1` the
saved-state stack is back to the caller's depth.  Then the resulting
machine has exactly the caller's continuation `K`, the caller's environment
mapping `st` restored unchanged (argument bindings and shadowing for the
callee are gone), the caller's frame stacks `ss`/`ps` restored, and the
value stack truncated to `rv'` with a single return value pushed on top. -/
theorem custom_call_frame_effect (exprList : List LispExpr) (K : List Instr)
    (closure : State) (args : List String) (body : LispExpr) (rv' : List LispValue)
    (ss : List State) (st : State) (ps : List Nat) (n : Nat) (m₂ : Machine)
    (hargs : args.length = exprList.length)
    (hmid : ∀ k, 0 < k → k < n + 1 →
      ∃ mk, stepN k ⟨Instr.EvalFunction exprList :: K,
          LispValue.Function (LispFunc.Custom closure args body) :: rv', ss, st, ps⟩
          = .next mk
        ∧ ss.length < mk.states.length ∧ rv'.length + 1 ≤ mk.returnValues.length)
    (hend : stepN (n + 1) ⟨Instr.EvalFunction exprList :: K,
        LispValue.Function (LispFunc.Custom closure args body) :: rv', ss, st, ps⟩
        = .next m₂)
    (hret : m₂.states.length = ss.length) :
    ∃ v, m₂ = ⟨K, v :: rv', ss, st, ps⟩ := by
  have hs : step ⟨Instr.EvalFunction exprList :: K,
      LispValue.Function (LispFunc.Custom closure args body) :: rv', ss, st, ps⟩
      = .next ⟨(exprList.reverse.map Instr.EvalAndPush ++
            [Instr.BindArguments args, Instr.EvalAndPush body]) ++ Instr.PopState :: K,
          (st.map Prod.snd).reverse ++ rv', ([] : List State) ++ st :: ss,
          st.foldl (fun c nv => setVariable c nv.1 nv.2) closure,
          ([] : List Nat) ++ rv'.length :: ps⟩ := by
    show applyCustom closure args body exprList K rv' ss st ps = _
    unfold applyCustom
    rw [if_neg (not_not_intro hargs)]
    simp
  have hc : countPop (exprList.reverse.map Instr.EvalAndPush ++
      [Instr.BindArguments args, Instr.EvalAndPush body]) = ([] : List State).length := by
    rw [countPop_append, countPop_map_eval]
    rfl
  have hqq : ∀ q ∈ ([] : List Nat), rv'.length ≤ q := by
    intro q hq
    exact absurd hq (List.not_mem_nil q)
  have hm : ∀ k, k < n →
      ∃ mk, stepN k ⟨(exprList.reverse.map Instr.EvalAndPush ++
            [Instr.BindArguments args, Instr.EvalAndPush body]) ++ Instr.PopState :: K,
          (st.map Prod.snd).reverse ++ rv', ([] : List State) ++ st :: ss,
          st.foldl (fun c nv => setVariable c nv.1 nv.2) closure,
          ([] : List Nat) ++ rv'.length :: ps⟩ = .next mk
        ∧ ss.length < mk.states.length ∧ rv'.length + 1 ≤ mk.returnValues.length := by
    intro k hk
    obtain ⟨mk, hmk, a, b⟩ := hmid (k + 1) (Nat.succ_pos k) (by omega)
    rw [stepN_shift hs k] at hmk
    exact ⟨mk, hmk, a, b⟩
  exact frame_locality n
    (exprList.reverse.map Instr.EvalAndPush ++
      [Instr.BindArguments args, Instr.EvalAndPush body]) [] []
    ((st.map Prod.snd).reverse)
    (st.foldl (fun c nv => setVariable c nv.1 nv.2) closure) st ss ps K rv' m₂
    hc rfl hqq hm (shift_end hs hend) hret

/-- Witness for C10: applying `(lambda (x) x)` to the literal `5` from the
initial environment returns after five machine steps, and the theorem
recovers that the final machine is the caller's machine with exactly the
return value `5` pushed. -/
theorem custom_call_frame_effect_witness :
    ∃ v, (⟨[], [LispValue.Integer 5], [], State.new, [0]⟩ : Machine)
      = ⟨[], v :: ([] : List LispValue), [], State.new, [0]⟩ :=
  custom_call_frame_effect [LispExpr.Value (LispValue.Integer 5)] [] State.new ["x"]
    (LispExpr.OpVar "x") [] [] State.new [0] 4
    ⟨[], [LispValue.Integer 5], [], State.new, [0]⟩
    rfl
    (by
      intro k hk0 hk5
      interval_cases k
      · exact ⟨_, rfl, by decide, by decide⟩
      · exact ⟨_, rfl, by decide, by decide⟩
      · exact ⟨_, rfl, by decide, by decide⟩
      · exact ⟨_, rfl, by decide, by decide⟩)
    rfl rfl

end OldEval
